import Mathlib

/-
Verification development for the allocator-aware shadow-memory coordinator
of the Dr. Memory memory debugger (drmemory/alloc_drmem.c).

The definitions below are a shallow embedding of alloc_drmem.c.  Application
addresses are modelled as natural numbers with 0 playing the role of NULL.
Primitives implemented outside alloc_drmem.c (the red-black interval tree of
redblack.c, the shadow-memory facade of shadow.c, the refcounted packed
callstacks of callstack.c and the instruction accessors of the
instrumentation host) are modelled from the specification, as noted on each
such definition.
-/

set_option linter.unusedVariables false

namespace DrMem

/-- Shadow tag for one application byte (the SHADOW_* values of shadow.h). -/
inductive Tag where
  | unaddressable
  | undefined
  | defined
  | unknown
deriving DecidableEq, Repr

/-- Shadow memory: one tag per application byte address. -/
abbrev Shadow := Nat → Tag

/-- Modelled from the spec: shadow_set_range of the shadow-memory facade
(shadow.c is not part of the embedded sources).  Fills every byte of
[lo, hi) with tag t, last-writer-wins. -/
def shadow_set_range (lo hi : Nat) (t : Tag) (sh : Shadow) : Shadow :=
  fun a => if lo ≤ a ∧ a < hi then t else sh a

/-- Modelled from the spec: shadow_copy_range of the shadow-memory facade
(shadow.c is not part of the embedded sources).  Copies the tags of
[src, src+len) over [dst, dst+len), preserving relative positions and
reading the pre-state even on overlap (move semantics). -/
def shadow_copy_range (src dst len : Nat) (sh : Shadow) : Shadow :=
  fun a => if dst ≤ a ∧ a < dst + len then sh (src + (a - dst)) else sh a

/-- The option fields of the options struct consumed by alloc_drmem.c. -/
structure Options where
  leaks_only : Bool
  shadowing : Bool
  delay_frees : Nat
  redzone_size : Nat
deriving DecidableEq, Repr

/-! Interval tree (redblack.c is not part of the embedded sources; nodes and
operations are modelled from the spec, as an ordered-by-base list of
non-overlapping (base, size, client-payload) nodes). -/

/-- Modelled from the spec: an interval-tree node (base, size, payload),
half-open interval [base, base+size). -/
structure RBNode (α : Type) where
  base : Nat
  size : Nat
  client : α
deriving DecidableEq, Repr

/-- Whether node n overlaps the half-open range [lo, hi). -/
def rb_overlap_pred (lo hi : Nat) (n : RBNode α) : Bool :=
  decide (n.base < hi ∧ lo < n.base + n.size)

/-- Modelled from the spec: rb_overlaps_node returns the first tree node
overlapping [lo, hi), if any. -/
def rb_overlaps_node (t : List (RBNode α)) (lo hi : Nat) : Option (RBNode α) :=
  t.find? (rb_overlap_pred lo hi)

/-- Modelled from the spec: rb_find returns the node whose base equals b. -/
def rb_find (t : List (RBNode α)) (b : Nat) : Option (RBNode α) :=
  t.find? (fun n => n.base == b)

/-- Modelled from the spec: rb_in_node returns the node containing addr. -/
def rb_in_node (t : List (RBNode α)) (addr : Nat) : Option (RBNode α) :=
  t.find? (fun n => decide (n.base ≤ addr ∧ addr < n.base + n.size))

/-- Modelled from the spec: rb_delete removes the given node from the tree. -/
def rb_delete [DecidableEq α] (t : List (RBNode α)) (n : RBNode α) :
    List (RBNode α) :=
  match t with
  | [] => []
  | m :: r => if m = n then r else m :: rb_delete r n

/-- Insertion keeping the list ordered by low endpoint (the tree's ordering). -/
def rb_insert_sorted (t : List (RBNode α)) (n : RBNode α) : List (RBNode α) :=
  match t with
  | [] => [n]
  | m :: r => if n.base < m.base then n :: m :: r else m :: rb_insert_sorted r n

/-- Modelled from the spec: rb_insert inserts [base, base+size) with the given
client payload.  If an existing node overlaps the new range, that node is
returned and the tree is unchanged (insertion asserts non-overlap); on
success the inserted range is added and none is returned. -/
def rb_insert (t : List (RBNode α)) (base size : Nat) (client : α) :
    Option (RBNode α) × List (RBNode α) :=
  match rb_overlaps_node t base (base + size) with
  | some n => (some n, t)
  | none => (none, rb_insert_sorted t ⟨base, size, client⟩)

/-- Number of nodes of t overlapping [lo, hi); termination measure for the
removal loop of mmap_tree_remove. -/
def rb_count_overlaps (t : List (RBNode α)) (lo hi : Nat) : Nat :=
  (t.filter (rb_overlap_pred lo hi)).length

theorem rb_overlaps_node_mem {t : List (RBNode α)} {lo hi : Nat} {n : RBNode α}
    (h : rb_overlaps_node t lo hi = some n) :
    n ∈ t ∧ rb_overlap_pred lo hi n = true :=
  ⟨List.mem_of_find?_eq_some h, List.find?_some h⟩

theorem rb_count_overlaps_delete [DecidableEq α] {t : List (RBNode α)}
    {n : RBNode α} (hmem : n ∈ t) {lo hi : Nat}
    (hov : rb_overlap_pred lo hi n = true) :
    rb_count_overlaps (rb_delete t n) lo hi < rb_count_overlaps t lo hi := by
  induction t with
  | nil => cases hmem
  | cons m r ih =>
    by_cases hm : m = n
    · subst hm
      simp only [rb_delete, if_pos rfl, rb_count_overlaps, List.filter_cons,
        hov]
      simp [Nat.lt_succ_of_le, Nat.le_refl]
    · have hmem' : n ∈ r := by
        rcases List.mem_cons.mp hmem with h | h
        · exact absurd h.symm hm
        · exact h
      have := ih hmem'
      simp only [rb_delete, if_neg hm, rb_count_overlaps, List.filter_cons]
      by_cases hp : rb_overlap_pred lo hi m = true
      · simpa [hp, rb_count_overlaps] using Nat.succ_lt_succ this
      · simp only [Bool.not_eq_true] at hp
        simpa [hp, rb_count_overlaps] using this

theorem rb_count_overlaps_insert_sorted {t : List (RBNode α)} {m : RBNode α}
    {lo hi : Nat} (hm : rb_overlap_pred lo hi m = false) :
    rb_count_overlaps (rb_insert_sorted t m) lo hi =
      rb_count_overlaps t lo hi := by
  induction t with
  | nil => simp [rb_insert_sorted, rb_count_overlaps, hm]
  | cons k r ih =>
    simp only [rb_insert_sorted]
    by_cases hb : m.base < k.base
    · simp [hb, rb_count_overlaps, List.filter_cons, hm]
    · by_cases hk : rb_overlap_pred lo hi k = true
      · simp only [if_neg hb, rb_count_overlaps, List.filter_cons, hk]
        simpa [rb_count_overlaps] using ih
      · simp only [Bool.not_eq_true] at hk
        simp only [if_neg hb, rb_count_overlaps, List.filter_cons, hk]
        simpa [rb_count_overlaps] using ih

theorem rb_count_overlaps_insert {t : List (RBNode α)} {b s : Nat} {c : α}
    {lo hi : Nat} (hm : rb_overlap_pred lo hi (⟨b, s, c⟩ : RBNode α) = false) :
    rb_count_overlaps (rb_insert t b s c).2 lo hi =
      rb_count_overlaps t lo hi := by
  unfold rb_insert
  cases hfind : rb_overlaps_node t b (b + s) with
  | some n => rfl
  | none => exact rb_count_overlaps_insert_sorted hm

/-! Anonymous-map tracker (mmap_tree_add / mmap_tree_remove / mmap_anon_lookup
of alloc_drmem.c, Linux build). -/

/-- Embedding of mmap_tree_add: attempt to insert [base, base+size); if an
existing node overlaps, delete it and insert the union of the two ranges
instead (the returned node of a failed re-insert is dropped, as in the
source, whose ASSERT has no release-build effect). -/
def mmap_tree_add (t : List (RBNode Unit)) (base size : Nat) :
    List (RBNode Unit) :=
  match rb_insert t base size () with
  | (none, t') => t'
  | (some n, _) =>
    let t1 := rb_delete t n
    let merge_end := if base + size > n.base + n.size then base + size
      else n.base + n.size
    let merge_base := if base < n.base then base else n.base
    (rb_insert t1 merge_base (merge_end - merge_base) ()).2

/-- Embedding of mmap_tree_remove: while some node overlaps [base, base+size),
delete it and re-insert the residual piece below base and the residual piece
above base+size; returns whether any removal occurred together with the
resulting tree. -/
def mmap_tree_remove (base size : Nat) (t : List (RBNode Unit)) :
    Bool × List (RBNode Unit) :=
  match hfind : rb_overlaps_node t base (base + size) with
  | none => (false, t)
  | some n =>
    let t1 := rb_delete t n
    let t2 := if n.base < base then
        (rb_insert t1 n.base (base - n.base) ()).2
      else t1
    let t3 := if n.base + n.size > base + size then
        (rb_insert t2 (base + size) (n.base + n.size - (base + size)) ()).2
      else t2
    (true, (mmap_tree_remove base size t3).2)
termination_by rb_count_overlaps t base (base + size)
decreasing_by
  simp only [dite_eq_ite]
  have h1 := rb_overlaps_node_mem hfind
  have hdel := rb_count_overlaps_delete h1.1 h1.2
  have hmid : rb_count_overlaps
      (if n.base < base then
        (rb_insert (rb_delete t n) n.base (base - n.base) ()).2
      else rb_delete t n) base (base + size) =
      rb_count_overlaps (rb_delete t n) base (base + size) := by
    by_cases hb : n.base < base
    · rw [if_pos hb]
      apply rb_count_overlaps_insert
      simp only [rb_overlap_pred, decide_eq_false_iff_not]
      omega
    · rw [if_neg hb]
  refine lt_of_le_of_lt (le_of_eq ?_) hdel
  by_cases hs : n.base + n.size > base + size
  · rw [if_pos hs, rb_count_overlaps_insert, hmid]
    simp only [rb_overlap_pred, decide_eq_false_iff_not]
    omega
  · rw [if_neg hs, hmid]

/-- Embedding of mmap_anon_lookup: containing-node query on the tracker. -/
def mmap_anon_lookup (t : List (RBNode Unit)) (addr : Nat) :
    Option (Nat × Nat) :=
  match rb_in_node t addr with
  | some n => some (n.base, n.size)
  | none => none

/-! Delayed-free quarantine (the delay_free_list FIFO array, delay_free_head,
delay_free_fill, and the companion delay_free_tree of alloc_drmem.c).
The Windows build is modelled, which stores an owning heap alongside each
entry; the Linux build is the same minus that field. -/

/-- One slot of the delay_free_list array: the address to pass to free()
(real base including redzones; 0 plays the role of NULL after a heap-destroy
invalidation) and the owning heap. -/
structure DSlot where
  addr : Nat
  heap : Nat
deriving DecidableEq, Repr

/-- The quarantine globals: delay_free_list, delay_free_head,
delay_free_fill, delay_free_tree.  The tree payload bool is the client value
stored by client_handle_free and read back by overlaps_delayed_free as
has_redzone. -/
structure DFState where
  slots : List DSlot
  head : Nat
  fill : Nat
  tree : List (RBNode Bool)
deriving DecidableEq, Repr

/-- Quarantine state established by alloc_drmem_init for capacity c. -/
def df_init (c : Nat) : DFState :=
  ⟨List.replicate c ⟨0, 0⟩, 0, 0, []⟩

/-- Embedding of client_handle_free.  Arguments are the allocation's app base
and size, real base (including redzones), and (Windows) owning heap; returns
the updated shadow, the updated quarantine state, the value to pass to the
real free (0 = NULL for a delayed free, real_base for no change), and the
INOUT heap value. -/
def client_handle_free (opts : Options) (base size real_base heap : Nat)
    (sh : Shadow) (st : DFState) : Shadow × DFState × Nat × Nat :=
  let sh1 := if opts.leaks_only = false ∧ opts.shadowing = true then
      shadow_set_range base (base + size) Tag.unaddressable sh
    else sh
  if opts.leaks_only = false ∧ opts.shadowing = true ∧ 0 < opts.delay_frees
  then
    let real_size := if base ≠ real_base then size + 2 * opts.redzone_size
      else size
    let tree1 := (rb_insert st.tree real_base real_size (base == real_base)).2
    if st.fill = opts.delay_frees then
      let slot := st.slots.getD st.head ⟨0, 0⟩
      let pass_to_free := slot.addr
      let pass_heap := slot.heap
      let slots1 := st.slots.set st.head ⟨real_base, heap⟩
      let head1 := if st.head + 1 ≥ opts.delay_frees then 0 else st.head + 1
      let tree2 := if pass_to_free ≠ 0 then
          match rb_find tree1 pass_to_free with
          | some n => rb_delete tree1 n
          | none => tree1
        else tree1
      (sh1, ⟨slots1, head1, st.fill, tree2⟩, pass_to_free, pass_heap)
    else
      let slots1 := st.slots.set st.fill ⟨real_base, heap⟩
      (sh1, ⟨slots1, st.head, st.fill + 1, tree1⟩, 0, heap)
  else (sh1, st, real_base, heap)

/-- One iteration of the client_handle_heap_destroy sweep at slot index i:
if the slot's heap matches, remove its tree node (found by base, as the
source's rb_find) and invalidate the slot by writing a NULL base. -/
def heap_destroy_step (heap : Nat) (st : DFState) (i : Nat) : DFState :=
  let s := st.slots.getD i ⟨0, 0⟩
  if s.heap = heap then
    let tree1 := match rb_find st.tree s.addr with
      | some n => rb_delete st.tree n
      | none => st.tree
    ⟨st.slots.set i ⟨0, s.heap⟩, st.head, st.fill, tree1⟩
  else st

/-- Embedding of client_handle_heap_destroy (Windows): sweep slots
0 .. fill-1, invalidating those whose heap matches; head and fill are not
touched (the array is not compacted). -/
def client_handle_heap_destroy (heap : Nat) (st : DFState) : DFState :=
  (List.range st.fill).foldl (heap_destroy_step heap) st

/-- Embedding of overlaps_delayed_free: query the delay_free_tree for a node
overlapping [start, e); on a hit return the reported free range, shrunk by
one redzone width at each end.  The has_redzone flag consulted here is the
client payload that client_handle_free stored. -/
def overlaps_delayed_free (opts : Options) (t : List (RBNode Bool))
    (start e : Nat) : Option (Nat × Nat) :=
  match rb_overlaps_node t start e with
  | none => none
  | some n =>
    let has_redzone := n.client
    if has_redzone = false ∨
        (start < n.base + n.size - opts.redzone_size ∧
         e ≥ n.base + opts.redzone_size) then
      some (n.base + opts.redzone_size, n.base + n.size - opts.redzone_size)
    else none

/-- Free event: app base, app size, real base, owning heap. -/
structure FreeEv where
  base : Nat
  size : Nat
  real_base : Nat
  heap : Nat
deriving DecidableEq, Repr

/-- Runs client_handle_free over a sequence of free events, returning the
result of the last call (the shadow, quarantine state, pass-to-free value
and heap of the final event). -/
def runFrees (opts : Options) : List FreeEv → Shadow → DFState →
    Shadow × DFState × Nat × Nat
  | [], sh, st => (sh, st, 0, 0)
  | [e], sh, st => client_handle_free opts e.base e.size e.real_base e.heap sh st
  | e :: e' :: rest, sh, st =>
    let r := client_handle_free opts e.base e.size e.real_base e.heap sh st
    runFrees opts (e' :: rest) r.1 r.2.1

/-! Allocator events: realloc (client_handle_realloc of alloc_drmem.c). -/

/-- Embedding of the shadow effects of client_handle_realloc: copy the old
allocation's shadow over the new region (marking a grown tail undefined),
then mark any abandoned front and back of the old region unaddressable. -/
def client_handle_realloc (opts : Options) (old_base old_size new_base
    new_size : Nat) (sh : Shadow) : Shadow :=
  if opts.leaks_only = false ∧ opts.shadowing = true then
    let sh1 := if new_size > old_size then
        shadow_set_range (new_base + old_size) (new_base + new_size)
          Tag.undefined (shadow_copy_range old_base new_base old_size sh)
      else shadow_copy_range old_base new_base new_size sh
    let sh2 := if new_base > old_base then
        shadow_set_range old_base
          (if new_base < old_base + old_size then new_base
           else old_base + old_size)
          Tag.unaddressable sh1
      else sh1
    let sh3 := if new_base + new_size < old_base + old_size then
        shadow_set_range
          (if new_base + new_size < old_base then old_base
           else new_base + new_size)
          (old_base + old_size) Tag.unaddressable sh2
      else sh2
    sh3
  else sh

/-! Signals (event_signal_alloc, at_signal_handler and the SYS_rt_sigreturn
arm of client_pre_syscall; Linux build). -/

/-- The per-thread client state fields used by the signal handling code
(client_per_thread_t); 0 plays the role of the NULL / unset sentinel. -/
structure CPT where
  signal_xsp : Nat
  sigaltstack : Nat
  sigaltsize : Nat
  sigframe_top : Nat
deriving DecidableEq, Repr

/-- Embedding of event_signal_alloc: capture the interrupted stack pointer at
signal delivery. -/
def event_signal_alloc (xsp : Nat) (cpt : CPT) : CPT :=
  { cpt with signal_xsp := xsp }

/-- Embedding of at_signal_handler, called at handler entry with the current
stack pointer: if no signal delivery was recorded, do nothing; otherwise
compute the frame top (altstack base, or the interrupted xsp for a nested
altstack signal or when no altstack applies), mark [xsp, frame_top) defined,
record frame_top as sigframe_top, and reset signal_xsp to the unset
sentinel. -/
def at_signal_handler (xsp : Nat) (cpt : CPT) (sh : Shadow) : CPT × Shadow :=
  if cpt.signal_xsp = 0 then (cpt, sh)
  else
    let frame_top :=
      if cpt.sigaltstack ≠ 0 ∧ cpt.sigaltstack > xsp ∧
          cpt.sigaltstack - xsp < cpt.sigaltsize then
        if cpt.sigaltstack > cpt.signal_xsp ∧ cpt.signal_xsp < xsp then
          cpt.signal_xsp
        else cpt.sigaltstack
      else cpt.signal_xsp
    ({ cpt with sigframe_top := frame_top, signal_xsp := 0 },
     shadow_set_range xsp frame_top Tag.defined sh)

/-- Embedding of the SYS_rt_sigreturn arm of client_pre_syscall (including
the leaks_only / shadowing early return at the top of that function): mark
[xsp, sigframe_top) unaddressable. -/
def client_pre_syscall_sigreturn (opts : Options) (xsp : Nat) (cpt : CPT)
    (sh : Shadow) : Shadow :=
  if opts.leaks_only = true ∨ opts.shadowing = false then sh
  else shadow_set_range xsp cpt.sigframe_top Tag.unaddressable sh

/-! Shared callstack pool (alloc_stack_table plus the packed-callstack
refcounts; client_add_malloc_pre / client_malloc_data_free of
alloc_drmem.c).  Callstack content is modelled as a natural number;
packed_callstack_cmp is content equality.  The pool is an association list
mapping content to the entry's refcount. -/

abbrev Pool := List (Nat × Nat)

/-- Modelled from the spec: hashtable_lookup on alloc_stack_table, keyed by
callstack content. -/
def pool_lookup : Pool → Nat → Option Nat
  | [], _ => none
  | (k, n) :: r, c => if k = c then some n else pool_lookup r c

/-- Modelled from the spec: packed_callstack_add_ref on the pool entry of
content c (bump its refcount). -/
def pool_incr : Pool → Nat → Pool
  | [], _ => []
  | (k, n) :: r, c => if k = c then (k, n + 1) :: r else (k, n) :: pool_incr r c

/-- Overwrite the refcount recorded for content c. -/
def pool_update : Pool → Nat → Nat → Pool
  | [], _, _ => []
  | (k, n) :: r, c, m => if k = c then (k, m) :: r else (k, n) :: pool_update r c m

/-- Modelled from the spec: hashtable_remove on alloc_stack_table (the
removal callback then drops the refcount to 0 and frees storage, so the
entry simply disappears). -/
def pool_remove : Pool → Nat → Pool
  | [], _ => []
  | (k, n) :: r, c => if k = c then r else (k, n) :: pool_remove r c

/-- Embedding of client_add_malloc_pre for a malloc recording a fresh
callstack of content c (refcount 1): if no entry of equal content exists the
fresh callstack itself is added to the table, else the fresh one is freed
and the existing canonical entry used; either way packed_callstack_add_ref
then adds the allocation record's reference. -/
def client_add_malloc_pre (c : Nat) (p : Pool) : Pool :=
  match pool_lookup p c with
  | none => pool_incr ((c, 1) :: p) c
  | some _ => pool_incr p c

/-- Embedding of client_malloc_data_free for an allocation record holding a
callstack of content c: packed_callstack_free drops one reference; if one
reference remains it must be the table self-reference, so the entry is
removed from the table (whose callback performs the final free). -/
def client_malloc_data_free (c : Nat) (p : Pool) : Pool :=
  match pool_lookup p c with
  | some n =>
    if n - 1 = 1 then pool_remove p c else pool_update p c (n - 1)
  | none => p

/-- A malloc-record or free-record event, by callstack content. -/
inductive AllocEvent where
  | malloc (c : Nat)
  | free (c : Nat)
deriving DecidableEq, Repr

/-- Pool effect of one allocator event. -/
def poolStep (p : Pool) : AllocEvent → Pool
  | .malloc c => client_add_malloc_pre c p
  | .free c => client_malloc_data_free c p

/-- Pool contents after a sequence of allocator events. -/
def runPool (evs : List AllocEvent) : Pool :=
  evs.foldl poolStep []

/-- Effect of one allocator event on the census of live allocation records
per callstack content. -/
def liveStep (f : Nat → Nat) : AllocEvent → Nat → Nat
  | .malloc c => fun x => if x = c then f x + 1 else f x
  | .free c => fun x => if x = c then f x - 1 else f x

/-- Number of live allocation records holding content x, counted while
consuming events from the left starting from the census f. -/
def liveAfter : List AllocEvent → (Nat → Nat) → Nat → Nat
  | [], f => f
  | ev :: evs, f => liveAfter evs (liveStep f ev)

/-- Well-formed event sequences: every free-record event matches a live
allocation record. -/
def WFevents : List AllocEvent → (Nat → Nat) → Prop
  | [], _ => True
  | .malloc c :: evs, f => WFevents evs (liveStep f (.malloc c))
  | .free c :: evs, f => 0 < f c ∧ WFevents evs (liveStep f (.free c))

/-! Addressability exception recognizer: is_rawmemchr_pattern of
alloc_drmem.c.  The decoded-instruction accessors (decode, instr_get_opcode,
opnd_is_reg, opnd_get_size, opnd_get_immed_int) come from the
instrumentation host; instructions are modelled as their opcode plus source
and destination operand lists, which is exactly the information those
accessors expose to this pattern. -/

/-- General-purpose registers referenced by the patterns. -/
inductive Reg where
  | eax | ecx | edx | ebx | esp | ebp | esi | edi
deriving DecidableEq, Repr

/-- An instruction operand: register (with size), immediate, or memory
base+disp reference (with size). -/
inductive Opnd where
  | reg (r : Reg) (sz : Nat)
  | immed (v : Nat)
  | base_disp (b : Reg) (index : Option Reg) (scale : Nat) (disp : Int)
      (sz : Nat)
deriving DecidableEq, Repr

/-- A decoded instruction: opcode plus operand lists. -/
structure Instr where
  opcode : String
  srcs : List Opnd
  dsts : List Opnd
deriving DecidableEq, Repr

/-- Accessor opnd_is_reg of the host. -/
def opnd_is_reg : Opnd → Bool
  | .reg _ _ => true
  | _ => false

/-- Accessor opnd_get_size of the host (0 for immediates). -/
def opnd_get_size : Opnd → Nat
  | .reg _ sz => sz
  | .base_disp _ _ _ _ sz => sz
  | .immed _ => 0

/-- Accessor opnd_get_immed_int of the host, as the 32-bit pattern. -/
def opnd_get_immed_int : Opnd → Nat
  | .immed v => v
  | _ => 0

/-- Accessor instr_get_src i n of the host. -/
def instr_get_src (i : Instr) (n : Nat) : Opnd :=
  i.srcs.getD n (.immed 0)

/-- Accessor instr_get_dst i n of the host. -/
def instr_get_dst (i : Instr) (n : Nat) : Opnd :=
  i.dsts.getD n (.immed 0)

/-- OPSZ_PTR on the 32-bit build. -/
def OPSZ_PTR : Nat := 4

/-- The ALIGNED(addr, 4) check of the source. -/
def ALIGNED4 (addr : Nat) : Bool := addr % 4 == 0

/-- Embedding of is_rawmemchr_pattern.  readable1 is the result of the
dr_memory_is_readable probe at next_pc, next1 the instruction decoded there
(none when instr_valid fails), readable2 / next2 likewise for the
instruction after a skipped strchr xor.  Returns the match flag and the
now_addressable OUT value (false is written on a match). -/
def is_rawmemchr_pattern (addr : Nat) (inst : Instr) (readable1 : Bool)
    (next1 : Option Instr) (readable2 : Bool) (next2 : Option Instr)
    (now_addressable : Bool) : Bool × Bool :=
  if readable1 = false then (false, now_addressable)
  else if ALIGNED4 addr = false ∧
      inst.opcode = "mov_ld" ∧
      opnd_is_reg (instr_get_dst inst 0) = true ∧
      opnd_get_size (instr_get_dst inst 0) = OPSZ_PTR then
    -- skip the strchr/strchrnul xor when present
    let afterSkip : Option (Option Instr) :=
      match next1 with
      | some n =>
        if n.opcode = "xor" ∧ opnd_is_reg (instr_get_src n 0) = true ∧
            opnd_is_reg (instr_get_dst n 0) = true ∧
            opnd_get_size (instr_get_dst n 0) = OPSZ_PTR then
          if readable2 = false then none else some next2
        else some (some n)
      | none => some none
    match afterSkip with
    | none => (false, now_addressable)
    | some none => (false, now_addressable)
    | some (some n) =>
      if n.opcode = "mov_imm" ∧
          (opnd_get_immed_int (instr_get_src n 0) = 0xfefefeff ∨
           opnd_get_immed_int (instr_get_src n 0) = 0x7efefeff) ∧
          opnd_is_reg (instr_get_dst n 0) = true then
        (true, false)
      else (false, now_addressable)
  else (false, now_addressable)

/-! List helper lemmas shared by the quarantine proofs. -/

theorem getD_set_self {α : Type} (l : List α) (i : Nat) (h : i < l.length)
    (a d : α) : (l.set i a).getD i d = a := by
  induction l generalizing i with
  | nil => simp at h
  | cons x xs ih =>
    cases i with
    | zero => rfl
    | succ n =>
      simp only [List.set_cons_succ, List.getD_cons_succ]
      exact ih n (by simpa using h)

theorem getD_set_ne {α : Type} (l : List α) (i j : Nat) (h : i ≠ j)
    (a d : α) : (l.set i a).getD j d = l.getD j d := by
  induction l generalizing i j with
  | nil => simp [List.set]
  | cons x xs ih =>
    cases i with
    | zero =>
      cases j with
      | zero => exact absurd rfl h
      | succ m => simp [List.getD_cons_succ]
    | succ n =>
      cases j with
      | zero => simp
      | succ m =>
        simp only [List.set_cons_succ, List.getD_cons_succ]
        exact ih n m (fun hh => h (by rw [hh]))

/-! Claim C9: with leaks_only set or shadowing disabled, client_handle_free
is a no-op returning real_base. -/

/-- C9: for every free event processed while options.leaks_only is true or
options.shadowing is false, client_handle_free performs no shadow update and
no quarantine operation (the shadow and the whole quarantine state are
returned unchanged) and returns real_base (with the heap untouched), even
when options.delay_frees > 0. -/
theorem client_handle_free_no_shadowing (opts : Options)
    (h : opts.leaks_only = true ∨ opts.shadowing = false)
    (base size real_base heap : Nat) (sh : Shadow) (st : DFState) :
    client_handle_free opts base size real_base heap sh st =
      (sh, st, real_base, heap) := by
  unfold client_handle_free
  rcases h with h | h <;> simp [h]

theorem client_handle_free_no_shadowing_witness :
    client_handle_free ⟨true, true, 4, 8⟩ 0x4008 0x20 0x4000 7
        (fun _ => Tag.defined) (df_init 4) =
      ((fun _ => Tag.defined), df_init 4, 0x4000, 7) :=
  client_handle_free_no_shadowing ⟨true, true, 4, 8⟩ (Or.inl rfl)
    0x4008 0x20 0x4000 7 (fun _ => Tag.defined) (df_init 4)

/-! Claim C10: a handler-entry event with no recorded signal delivery leaves
everything unchanged. -/

/-- C10: for every handler-entry event on a thread whose signal_xsp is the
unset sentinel, at_signal_handler returns without modifying any shadow byte
and without changing sigframe_top or any other per-thread field. -/
theorem at_signal_handler_no_pending_signal (xsp : Nat) (cpt : CPT)
    (sh : Shadow) (h : cpt.signal_xsp = 0) :
    at_signal_handler xsp cpt sh = (cpt, sh) := by
  unfold at_signal_handler
  simp [h]

theorem at_signal_handler_no_pending_signal_witness :
    at_signal_handler 0x7fa0 ⟨0, 0, 0, 0x9000⟩ (fun _ => Tag.undefined) =
      (⟨0, 0, 0, 0x9000⟩, fun _ => Tag.undefined) :=
  at_signal_handler_no_pending_signal 0x7fa0 ⟨0, 0, 0, 0x9000⟩
    (fun _ => Tag.undefined) rfl

/-! Claim C7: the rawmemchr/strchr pattern requires an unaligned access. -/

/-- The faulting pointer-sized load of the rawmemchr pattern, as decoded. -/
def rawmemchrLoad : Instr :=
  ⟨"mov_ld", [.base_disp .eax none 0 0 4], [.reg .ecx 4]⟩

/-- The magic-constant mov following the load in the rawmemchr pattern. -/
def rawmemchrMagic : Instr :=
  ⟨"mov_imm", [.immed 0xfefefeff], [.reg .edx 4]⟩

/-- C7: for every unaddressable access at a 4-byte-aligned address the
rawmemchr/strchr exception pattern does not match, whatever the instruction
context; and the very same instruction sequence (pointer-sized load followed
by a mov of immediate 0xfefefeff) does match at an unaligned address, so the
suppression depends exactly on the alignment. -/
theorem is_rawmemchr_pattern_aligned :
    (∀ (addr : Nat) (inst : Instr) (r1 : Bool) (n1 : Option Instr)
        (r2 : Bool) (n2 : Option Instr) (na : Bool), addr % 4 = 0 →
      (is_rawmemchr_pattern addr inst r1 n1 r2 n2 na).1 = false) ∧
    (is_rawmemchr_pattern 0x1001 rawmemchrLoad true (some rawmemchrMagic)
      true none false).1 = true := by
  constructor
  · intro addr inst r1 n1 r2 n2 na h
    have ha : ALIGNED4 addr = true := by simp [ALIGNED4, h]
    unfold is_rawmemchr_pattern
    by_cases hr : r1 = false
    · simp [hr]
    · simp [hr, ha]
  · decide

theorem is_rawmemchr_pattern_aligned_witness :
    0x1000 % 4 = 0 ∧
    (is_rawmemchr_pattern 0x1000 rawmemchrLoad true (some rawmemchrMagic)
      true none false).1 = false :=
  ⟨by decide,
   is_rawmemchr_pattern_aligned.1 0x1000 rawmemchrLoad true
     (some rawmemchrMagic) true none false (by decide)⟩

/-! Claim C2: overlaps_delayed_free on a quarantined block with redzones.
The code stores (base == real_base) as the tree payload and reads it back as
has_redzone, so for a block that does have redzones the body-confinement
check is skipped entirely: an access confined to the front redzone is
reported as a hit, contrary to the claim (and to the source's own comment
that the redzone is to be excluded from reports). -/

/-- Options used by the spec's redzone scenario: full shadowing,
delay_frees = 2, redzone_size = 8. -/
def redzoneOpts : Options := ⟨false, true, 2, 8⟩

/-- The quarantine state after freeing the block with app range
0x4008..0x4028 and real range 0x4000..0x4030 (has redzones). -/
def redzoneScenarioState : DFState :=
  (client_handle_free redzoneOpts 0x4008 0x20 0x4000 0
    (fun _ => Tag.defined) (df_init 2)).2.1

/-- C2 (evaluation at the failing input): after quarantining the redzone
block of the spec scenario, the access [0x4000, 0x4008) that is confined to
the front redzone is nevertheless reported as a hit with the app body bounds
(0x4008, 0x4028) — the claim requires no hit there; the in-body access
[0x4010, 0x4018) is reported with the same bounds as the claim states. -/
theorem overlaps_delayed_free_redzone_bug :
    overlaps_delayed_free redzoneOpts redzoneScenarioState.tree
        0x4000 0x4008 = some (0x4008, 0x4028) ∧
    overlaps_delayed_free redzoneOpts redzoneScenarioState.tree
        0x4010 0x4018 = some (0x4008, 0x4028) := by
  constructor
  · decide
  · decide

/-! Claim C3: the anonymous-map tracker does not merge adjacent ranges.
mmap_tree_add only coalesces when rb_insert reports an overlap of the
half-open ranges, and two adjacent mappings do not overlap, so the spec
scenario's two mmaps stay two separate nodes. -/

/-- The tracker after the spec scenario's two adjacent anonymous mmaps,
add(0x10000, 0x1000) then add(0x11000, 0x1000). -/
def mmapScenarioTree : List (RBNode Unit) :=
  mmap_tree_add (mmap_tree_add [] 0x10000 0x1000) 0x11000 0x1000

/-- C3 (counterexample): after add(0x10000,0x1000) and add(0x11000,0x1000)
the tracker does not hold the single merged interval (0x10000, 0x2000) the
claim asserts. -/
theorem mmap_tree_add_adjacent_not_merged :
    mmapScenarioTree ≠ [⟨0x10000, 0x2000, ()⟩] := by
  decide

/-- C3 (amended): add coalesces the new range only with an overlapping
existing node; adjacent nodes are not merged.  After add(0x10000,0x1000)
then add(0x11000,0x1000) the tracker holds the two separate intervals
(0x10000,0x1000) and (0x11000,0x1000), and a subsequent
remove(0x10800,0x800) deletes the overlapped node, re-inserts the residual
prefix, and leaves exactly the two intervals (0x10000,0x800) and
(0x11000,0x1000). -/
theorem mmap_tree_add_remove_scenario :
    mmapScenarioTree =
      [⟨0x10000, 0x1000, ()⟩, ⟨0x11000, 0x1000, ()⟩] ∧
    mmap_tree_remove 0x10800 0x800 mmapScenarioTree =
      (true, [⟨0x10000, 0x800, ()⟩, ⟨0x11000, 0x1000, ()⟩]) := by
  constructor
  · decide
  · have hv : rb_overlaps_node mmapScenarioTree 0x10800 (0x10800 + 0x800) =
        some ⟨0x10000, 0x1000, ()⟩ := by decide
    unfold mmap_tree_remove
    split
    · simp_all
    · rename_i n hyp
      rw [hv] at hyp
      injection hyp with hyp
      subst hyp
      norm_num
      have h3 : (rb_insert (rb_delete mmapScenarioTree ⟨0x10000, 0x1000, ()⟩)
          0x10000 (0x10800 - 0x10000) ()).2 =
          [⟨0x10000, 0x800, ()⟩, ⟨0x11000, 0x1000, ()⟩] := by decide
      rw [h3]
      unfold mmap_tree_remove
      split
      · rfl
      · rename_i m hyp2
        have hnone : rb_overlaps_node
            [(⟨0x10000, 0x800, ()⟩ : RBNode Unit), ⟨0x11000, 0x1000, ()⟩]
            0x10800 (0x10800 + 0x800) = none := by decide
        rw [hnone] at hyp2
        cases hyp2

/-! Claim C5: realloc shadow effects with the new region nested in the old. -/

/-- Pointwise evaluation of client_handle_realloc when the new region is
nested inside the old one: the middle holds the copied old tags, the rest of
the old region is unaddressable, and bytes outside the old region keep their
tags. -/
theorem client_handle_realloc_nested_eval (opts : Options)
    (hlo : opts.leaks_only = false) (hsh : opts.shadowing = true)
    (ob os nb ns : Nat) (sh : Shadow) (hb : ob ≤ nb)
    (he : nb + ns ≤ ob + os) (a : Nat) :
    client_handle_realloc opts ob os nb ns sh a =
      if nb ≤ a ∧ a < nb + ns then sh (ob + (a - nb))
      else if ob ≤ a ∧ a < ob + os then Tag.unaddressable
      else sh a := by
  have hns : ¬ ns > os := by omega
  unfold client_handle_realloc
  rw [if_pos (show opts.leaks_only = false ∧ opts.shadowing = true from
    ⟨hlo, hsh⟩)]
  rw [if_neg hns]
  by_cases h2 : nb > ob
  · rw [if_pos h2]
    by_cases h3 : nb + ns < ob + os
    · rw [if_pos h3]
      by_cases h4 : nb + ns < ob
      · omega
      · rw [if_neg h4]
        by_cases h5 : nb < ob + os
        · rw [if_pos h5]
          simp only [shadow_set_range, shadow_copy_range]
          split_ifs <;> first | rfl | omega
        · rw [if_neg h5]
          simp only [shadow_set_range, shadow_copy_range]
          split_ifs <;> first | rfl | omega
    · rw [if_neg h3]
      by_cases h5 : nb < ob + os
      · rw [if_pos h5]
        simp only [shadow_set_range, shadow_copy_range]
        split_ifs <;> first | rfl | omega
      · rw [if_neg h5]
        simp only [shadow_set_range, shadow_copy_range]
        split_ifs <;> first | rfl | omega
  · rw [if_neg h2]
    by_cases h3 : nb + ns < ob + os
    · rw [if_pos h3]
      by_cases h4 : nb + ns < ob
      · omega
      · rw [if_neg h4]
        simp only [shadow_set_range, shadow_copy_range]
        split_ifs <;> first | rfl | omega
    · rw [if_neg h3]
      simp only [shadow_set_range, shadow_copy_range]
      split_ifs <;> first | rfl | omega

/-- C5: for every realloc event with shadowing enabled whose new region
[nb, nb+ns) lies inside the old region [ob, ob+os): the old prefix [ob, nb)
and old suffix [nb+ns, ob+os) are unaddressable afterwards, the surviving
middle keeps the old allocation's tags (byte i of the new region carries the
tag old byte i had, which is pointwise preservation whenever the base is
unchanged), and when the new region exactly equals the old region the whole
shadow is unchanged. -/
theorem client_handle_realloc_nested (opts : Options)
    (hlo : opts.leaks_only = false) (hsh : opts.shadowing = true)
    (ob os nb ns : Nat) (sh : Shadow) (hb : ob ≤ nb)
    (he : nb + ns ≤ ob + os) :
    (∀ a, ob ≤ a → a < nb →
      client_handle_realloc opts ob os nb ns sh a = Tag.unaddressable) ∧
    (∀ a, nb + ns ≤ a → a < ob + os →
      client_handle_realloc opts ob os nb ns sh a = Tag.unaddressable) ∧
    (∀ i, i < ns →
      client_handle_realloc opts ob os nb ns sh (nb + i) = sh (ob + i)) ∧
    (ob = nb → os = ns →
      ∀ a, client_handle_realloc opts ob os nb ns sh a = sh a) := by
  have hev := client_handle_realloc_nested_eval opts hlo hsh ob os nb ns sh
    hb he
  refine ⟨?_, ?_, ?_, ?_⟩
  · intro a h1 h2
    rw [hev a, if_neg (by omega), if_pos (by omega)]
  · intro a h1 h2
    rw [hev a, if_neg (by omega), if_pos (by omega)]
  · intro i hi
    rw [hev (nb + i), if_pos (by omega)]
    congr 1
    omega
  · intro h1 h2 a
    rw [hev a]
    by_cases hmem : nb ≤ a ∧ a < nb + ns
    · rw [if_pos hmem]
      congr 1
      omega
    · rw [if_neg hmem, if_neg (by omega)]

theorem client_handle_realloc_nested_witness :
    client_handle_realloc ⟨false, true, 0, 0⟩ 0x8000 0x100 0x8000 0x40
        (fun _ => Tag.defined) 0x8080 = Tag.unaddressable :=
  (client_handle_realloc_nested ⟨false, true, 0, 0⟩ rfl rfl
      0x8000 0x100 0x8000 0x40 (fun _ => Tag.defined)
      (by decide) (by decide)).2.1 0x8080 (by decide) (by decide)

/-! Claim C6: signal delivery, handler entry and sigreturn with no
altstack. -/

/-- C6: signal delivered at stack pointer X, handler entered at stack
pointer H < X on a thread with no altstack configured: at handler entry the
frame [H, X) becomes defined (other bytes unchanged), X is recorded as
sigframe_top, and signal_xsp is reset to the unset sentinel; at the matching
sigreturn with stack pointer xsp, every byte of [xsp, sigframe_top) becomes
unaddressable. -/
theorem signal_frame_roundtrip (opts : Options)
    (hlo : opts.leaks_only = false) (hsh : opts.shadowing = true)
    (cpt : CPT) (halt : cpt.sigaltstack = 0) (X H : Nat) (hX : 0 < X)
    (hH : H < X) (sh : Shadow) :
    (at_signal_handler H (event_signal_alloc X cpt) sh).1.sigframe_top = X ∧
    (at_signal_handler H (event_signal_alloc X cpt) sh).1.signal_xsp = 0 ∧
    (∀ a, H ≤ a → a < X →
      (at_signal_handler H (event_signal_alloc X cpt) sh).2 a =
        Tag.defined) ∧
    (∀ a, ¬ (H ≤ a ∧ a < X) →
      (at_signal_handler H (event_signal_alloc X cpt) sh).2 a = sh a) ∧
    (∀ xsp a, xsp ≤ a →
      a < (at_signal_handler H (event_signal_alloc X cpt) sh).1.sigframe_top →
      client_pre_syscall_sigreturn opts xsp
        (at_signal_handler H (event_signal_alloc X cpt) sh).1
        (at_signal_handler H (event_signal_alloc X cpt) sh).2 a =
        Tag.unaddressable) := by
  have hX' : X ≠ 0 := by omega
  have key : at_signal_handler H (event_signal_alloc X cpt) sh =
      (⟨0, cpt.sigaltstack, cpt.sigaltsize, X⟩,
       shadow_set_range H X Tag.defined sh) := by
    unfold at_signal_handler event_signal_alloc
    simp [halt, hX']
  rw [key]
  refine ⟨rfl, rfl, ?_, ?_, ?_⟩
  · intro a h1 h2
    simp [shadow_set_range, h1, h2]
  · intro a h
    simp only [shadow_set_range]
    rw [if_neg h]
  · intro xsp a h1 h2
    unfold client_pre_syscall_sigreturn
    rw [if_neg (by simp [hlo, hsh])]
    simp only [shadow_set_range]
    rw [if_pos ⟨h1, h2⟩]

theorem signal_frame_roundtrip_witness :
    (at_signal_handler 0x7fa0 (event_signal_alloc 0x7ff0 ⟨0, 0, 0, 0⟩)
      (fun _ => Tag.unknown)).1.sigframe_top = 0x7ff0 ∧
    (at_signal_handler 0x7fa0 (event_signal_alloc 0x7ff0 ⟨0, 0, 0, 0⟩)
      (fun _ => Tag.unknown)).2 0x7fb0 = Tag.defined ∧
    client_pre_syscall_sigreturn ⟨false, true, 0, 0⟩ 0x7fe0
      (at_signal_handler 0x7fa0 (event_signal_alloc 0x7ff0 ⟨0, 0, 0, 0⟩)
        (fun _ => Tag.unknown)).1
      (at_signal_handler 0x7fa0 (event_signal_alloc 0x7ff0 ⟨0, 0, 0, 0⟩)
        (fun _ => Tag.unknown)).2 0x7fe8 = Tag.unaddressable := by
  have h := signal_frame_roundtrip ⟨false, true, 0, 0⟩ rfl rfl ⟨0, 0, 0, 0⟩
    rfl 0x7ff0 0x7fa0 (by decide) (by decide) (fun _ => Tag.unknown)
  refine ⟨h.1, h.2.2.1 0x7fb0 (by decide) (by decide), ?_⟩
  apply h.2.2.2.2 0x7fe0 0x7fe8 (by decide)
  rw [h.1]
  decide

/-! Claim C1: the quarantine is a FIFO of capacity delay_frees. -/

/-- Enqueue into a non-full quarantine: the entry is stored at slot fill,
fill is incremented, head is untouched, the interval enters the tree, and
NULL is returned so the caller frees nothing. -/
theorem client_handle_free_not_full (opts : Options)
    (hlo : opts.leaks_only = false) (hsh : opts.shadowing = true)
    (hdf : 0 < opts.delay_frees) (base size real_base heap : Nat)
    (sh : Shadow) (st : DFState) (hfill : st.fill < opts.delay_frees) :
    (client_handle_free opts base size real_base heap sh st).2 =
      (⟨st.slots.set st.fill ⟨real_base, heap⟩, st.head, st.fill + 1,
        (rb_insert st.tree real_base
          (if base ≠ real_base then size + 2 * opts.redzone_size else size)
          (base == real_base)).2⟩, 0, heap) := by
  unfold client_handle_free
  rw [if_pos (show opts.leaks_only = false ∧ opts.shadowing = true ∧
        0 < opts.delay_frees from ⟨hlo, hsh, hdf⟩),
      if_neg (show ¬ st.fill = opts.delay_frees by omega)]

/-- Enqueue into a full quarantine: the head slot's entry is evicted and its
address and heap are returned, the new entry overwrites the head slot, head
advances modulo the capacity, and fill is unchanged. -/
theorem client_handle_free_full (opts : Options)
    (hlo : opts.leaks_only = false) (hsh : opts.shadowing = true)
    (hdf : 0 < opts.delay_frees) (base size real_base heap : Nat)
    (sh : Shadow) (st : DFState) (hfill : st.fill = opts.delay_frees) :
    (client_handle_free opts base size real_base heap sh st).2.2.1 =
      (st.slots.getD st.head ⟨0, 0⟩).addr ∧
    (client_handle_free opts base size real_base heap sh st).2.2.2 =
      (st.slots.getD st.head ⟨0, 0⟩).heap ∧
    (client_handle_free opts base size real_base heap sh st).2.1.slots =
      st.slots.set st.head ⟨real_base, heap⟩ ∧
    (client_handle_free opts base size real_base heap sh st).2.1.fill =
      st.fill ∧
    (client_handle_free opts base size real_base heap sh st).2.1.head =
      (if st.head + 1 ≥ opts.delay_frees then 0 else st.head + 1) := by
  unfold client_handle_free
  rw [if_pos (show opts.leaks_only = false ∧ opts.shadowing = true ∧
        0 < opts.delay_frees from ⟨hlo, hsh, hdf⟩), if_pos hfill]
  exact ⟨rfl, rfl, rfl, rfl, rfl⟩

/-- Core of the round-trip: from a quarantine whose head is slot 0 and whose
slot 0 is already occupied, running exactly enough further frees to pass one
full cycle returns slot 0's stored address from the last free. -/
theorem runFrees_full_cycle (opts : Options)
    (hlo : opts.leaks_only = false) (hsh : opts.shadowing = true) :
    ∀ (evs : List FreeEv) (sh : Shadow) (st : DFState),
      st.head = 0 → st.slots.length = opts.delay_frees →
      1 ≤ st.fill → st.fill ≤ opts.delay_frees →
      st.fill + evs.length = opts.delay_frees + 1 →
      (runFrees opts evs sh st).2.2.1 = (st.slots.getD 0 ⟨0, 0⟩).addr := by
  intro evs
  induction evs with
  | nil =>
    intro sh st h0 hlen h1 hle hsum
    simp only [List.length_nil] at hsum
    omega
  | cons e rest ih =>
    intro sh st h0 hlen h1 hle hsum
    have hdf : 0 < opts.delay_frees := by omega
    cases rest with
    | nil =>
      have hfill : st.fill = opts.delay_frees := by
        simp only [List.length_cons, List.length_nil] at hsum
        omega
      have hf := (client_handle_free_full opts hlo hsh hdf e.base e.size
        e.real_base e.heap sh st hfill).1
      show (client_handle_free opts e.base e.size e.real_base e.heap
        sh st).2.2.1 = _
      rw [hf, h0]
    | cons e2 rest2 =>
      have hlt : st.fill < opts.delay_frees := by
        simp only [List.length_cons] at hsum
        omega
      have hstep : (client_handle_free opts e.base e.size e.real_base e.heap
          sh st).2.1 =
          ⟨st.slots.set st.fill ⟨e.real_base, e.heap⟩, st.head, st.fill + 1,
            (rb_insert st.tree e.real_base
              (if e.base ≠ e.real_base then e.size + 2 * opts.redzone_size
                else e.size)
              (e.base == e.real_base)).2⟩ :=
        congrArg Prod.fst (client_handle_free_not_full opts hlo hsh hdf
          e.base e.size e.real_base e.heap sh st hlt)
      show (runFrees opts (e2 :: rest2)
        (client_handle_free opts e.base e.size e.real_base e.heap sh st).1
        (client_handle_free opts e.base e.size e.real_base e.heap
          sh st).2.1).2.2.1 = _
      rw [hstep]
      refine Eq.trans (ih _ _ h0 ?_ ?_ ?_ ?_) ?_
      · show (st.slots.set st.fill ⟨e.real_base, e.heap⟩).length =
          opts.delay_frees
        simpa using hlen
      · show 1 ≤ st.fill + 1
        omega
      · show st.fill + 1 ≤ opts.delay_frees
        omega
      · show st.fill + 1 + (e2 :: rest2).length = opts.delay_frees + 1
        simp only [List.length_cons] at hsum ⊢
        omega
      · show ((st.slots.set st.fill ⟨e.real_base, e.heap⟩).getD 0
          ⟨0, 0⟩).addr = _
        rw [getD_set_ne _ _ _ (by omega)]

/-- C1: with the quarantine enabled (full shadowing and delay_frees > 0),
for every free event: while the FIFO is not full, client_handle_free stores
the freed block at slot fill, increments fill, leaves head alone, and
returns NULL so no real free happens; once full, each further enqueue
returns the address stored in the slot at head (the oldest live entry); and
a block enqueued into an empty quarantine is returned for real free by
exactly the delay_frees-th further enqueue. -/
theorem client_handle_free_fifo (opts : Options)
    (hlo : opts.leaks_only = false) (hsh : opts.shadowing = true)
    (hdf : 0 < opts.delay_frees) :
    (∀ base size real_base heap sh st, st.fill < opts.delay_frees →
      (client_handle_free opts base size real_base heap sh st).2.2.1 = 0 ∧
      (client_handle_free opts base size real_base heap sh st).2.1.slots =
        st.slots.set st.fill ⟨real_base, heap⟩ ∧
      (client_handle_free opts base size real_base heap sh st).2.1.fill =
        st.fill + 1 ∧
      (client_handle_free opts base size real_base heap sh st).2.1.head =
        st.head) ∧
    (∀ base size real_base heap sh st, st.fill = opts.delay_frees →
      (client_handle_free opts base size real_base heap sh st).2.2.1 =
        (st.slots.getD st.head ⟨0, 0⟩).addr) ∧
    (∀ (e : FreeEv) (evs : List FreeEv) (sh : Shadow),
      evs.length = opts.delay_frees →
      (runFrees opts evs
        (client_handle_free opts e.base e.size e.real_base e.heap sh
          (df_init opts.delay_frees)).1
        (client_handle_free opts e.base e.size e.real_base e.heap sh
          (df_init opts.delay_frees)).2.1).2.2.1 = e.real_base) := by
  refine ⟨?_, ?_, ?_⟩
  · intro base size real_base heap sh st hlt
    have h := client_handle_free_not_full opts hlo hsh hdf base size
      real_base heap sh st hlt
    exact ⟨by rw [h], by rw [h], by rw [h], by rw [h]⟩
  · intro base size real_base heap sh st hfull
    exact (client_handle_free_full opts hlo hsh hdf base size real_base heap
      sh st hfull).1
  · intro e evs sh hlen
    have hstep : (client_handle_free opts e.base e.size e.real_base e.heap
        sh (df_init opts.delay_frees)).2.1 =
        ⟨(List.replicate opts.delay_frees (⟨0, 0⟩ : DSlot)).set 0
            ⟨e.real_base, e.heap⟩, 0, 0 + 1,
          (rb_insert [] e.real_base
            (if e.base ≠ e.real_base then e.size + 2 * opts.redzone_size
              else e.size)
            (e.base == e.real_base)).2⟩ :=
      congrArg Prod.fst (client_handle_free_not_full opts hlo hsh hdf
        e.base e.size e.real_base e.heap sh (df_init opts.delay_frees) hdf)
    rw [hstep]
    refine Eq.trans (runFrees_full_cycle opts hlo hsh evs _ _ rfl ?_ ?_ ?_
      ?_) ?_
    · show ((List.replicate opts.delay_frees (⟨0, 0⟩ : DSlot)).set 0
        ⟨e.real_base, e.heap⟩).length = opts.delay_frees
      simp [List.length_set, List.length_replicate]
    · show 1 ≤ 0 + 1
      omega
    · show 0 + 1 ≤ opts.delay_frees
      omega
    · show 0 + 1 + evs.length = opts.delay_frees + 1
      omega
    · show (((List.replicate opts.delay_frees (⟨0, 0⟩ : DSlot)).set 0
        ⟨e.real_base, e.heap⟩).getD 0 ⟨0, 0⟩).addr = _
      rw [getD_set_self _ _ (by simpa using hdf)]

theorem client_handle_free_fifo_witness :
    (runFrees ⟨false, true, 1, 0⟩ [⟨0x2000, 0x20, 0x2000, 0⟩]
      (client_handle_free ⟨false, true, 1, 0⟩ 0x1000 0x20 0x1000 0
        (fun _ => Tag.unknown) (df_init 1)).1
      (client_handle_free ⟨false, true, 1, 0⟩ 0x1000 0x20 0x1000 0
        (fun _ => Tag.unknown) (df_init 1)).2.1).2.2.1 = 0x1000 :=
  (client_handle_free_fifo ⟨false, true, 1, 0⟩ rfl rfl (by decide)).2.2
    ⟨0x1000, 0x20, 0x1000, 0⟩ [⟨0x2000, 0x20, 0x2000, 0⟩]
    (fun _ => Tag.unknown) rfl

/-! Claim C8: the heap-destroy sweep. -/

theorem heap_destroy_step_head (h : Nat) (st : DFState) (i : Nat) :
    (heap_destroy_step h st i).head = st.head := by
  unfold heap_destroy_step
  by_cases hh : (st.slots.getD i ⟨0, 0⟩).heap = h
  · rw [if_pos hh]
  · rw [if_neg hh]

theorem heap_destroy_step_fill (h : Nat) (st : DFState) (i : Nat) :
    (heap_destroy_step h st i).fill = st.fill := by
  unfold heap_destroy_step
  by_cases hh : (st.slots.getD i ⟨0, 0⟩).heap = h
  · rw [if_pos hh]
  · rw [if_neg hh]

theorem heap_destroy_step_length (h : Nat) (st : DFState) (i : Nat) :
    (heap_destroy_step h st i).slots.length = st.slots.length := by
  unfold heap_destroy_step
  by_cases hh : (st.slots.getD i ⟨0, 0⟩).heap = h
  · rw [if_pos hh]
    exact List.length_set _ _ _
  · rw [if_neg hh]

theorem heap_destroy_step_other_slot (h : Nat) (st : DFState) {i j : Nat}
    (hne : i ≠ j) :
    (heap_destroy_step h st i).slots.getD j ⟨0, 0⟩ =
      st.slots.getD j ⟨0, 0⟩ := by
  unfold heap_destroy_step
  by_cases hh : (st.slots.getD i ⟨0, 0⟩).heap = h
  · rw [if_pos hh]
    exact getD_set_ne _ _ _ hne _ _
  · rw [if_neg hh]

theorem mem_of_mem_rb_delete [DecidableEq α] {t : List (RBNode α)}
    {m n : RBNode α} (h : m ∈ rb_delete t n) : m ∈ t := by
  induction t with
  | nil => cases h
  | cons x r ih =>
    by_cases hx : x = n
    · simp only [rb_delete, if_pos hx] at h
      exact List.mem_cons_of_mem _ h
    · simp only [rb_delete, if_neg hx] at h
      rcases List.mem_cons.mp h with h | h
      · exact h ▸ List.mem_cons_self _ _
      · exact List.mem_cons_of_mem _ (ih h)

theorem rb_delete_sublist [DecidableEq α] (t : List (RBNode α))
    (n : RBNode α) : (rb_delete t n).Sublist t := by
  induction t with
  | nil => exact List.Sublist.refl _
  | cons x r ih =>
    by_cases hx : x = n
    · simp only [rb_delete, if_pos hx]
      exact List.sublist_cons_self _ _
    · simp only [rb_delete, if_neg hx]
      exact List.Sublist.cons₂ _ ih

theorem rb_delete_no_base [DecidableEq α] {t : List (RBNode α)}
    (hnd : (t.map RBNode.base).Nodup) {n : RBNode α} (hn : n ∈ t)
    {m : RBNode α} (hm : m ∈ rb_delete t n) : m.base ≠ n.base := by
  induction t with
  | nil => cases hn
  | cons x r ih =>
    simp only [List.map_cons, List.nodup_cons] at hnd
    by_cases hx : x = n
    · subst hx
      simp only [rb_delete, if_pos rfl] at hm
      intro heq
      exact hnd.1 (heq ▸ List.mem_map_of_mem RBNode.base hm)
    · simp only [rb_delete, if_neg hx] at hm
      have hnr : n ∈ r := by
        rcases List.mem_cons.mp hn with h | h
        · exact absurd h.symm hx
        · exact h
      rcases List.mem_cons.mp hm with h | h
      · subst h
        intro heq
        exact hnd.1 (heq ▸ List.mem_map_of_mem RBNode.base hnr)
      · exact ih hnd.2 hnr h

theorem rb_find_eq_none_of_no_base {t : List (RBNode α)} {b : Nat}
    (h : ∀ m ∈ t, m.base ≠ b) : rb_find t b = none := by
  unfold rb_find
  apply List.find?_eq_none.mpr
  intro m hm
  simpa using h m hm

theorem heap_destroy_step_tree_mono (h : Nat) (st : DFState) (i : Nat)
    {m : RBNode Bool} (hm : m ∈ (heap_destroy_step h st i).tree) :
    m ∈ st.tree := by
  unfold heap_destroy_step at hm
  by_cases hh : (st.slots.getD i ⟨0, 0⟩).heap = h
  · rw [if_pos hh] at hm
    revert hm
    cases hfind : rb_find st.tree (st.slots.getD i ⟨0, 0⟩).addr with
    | some nd =>
      intro hm
      exact mem_of_mem_rb_delete hm
    | none =>
      intro hm
      exact hm
  · rw [if_neg hh] at hm
    exact hm

theorem heap_destroy_step_nodup (h : Nat) (st : DFState) (i : Nat)
    (hnd : (st.tree.map RBNode.base).Nodup) :
    ((heap_destroy_step h st i).tree.map RBNode.base).Nodup := by
  unfold heap_destroy_step
  by_cases hh : (st.slots.getD i ⟨0, 0⟩).heap = h
  · rw [if_pos hh]
    show (List.map RBNode.base
      (match rb_find st.tree (st.slots.getD i ⟨0, 0⟩).addr with
        | some n => rb_delete st.tree n
        | none => st.tree)).Nodup
    cases hfind : rb_find st.tree (st.slots.getD i ⟨0, 0⟩).addr with
    | some nd =>
      exact hnd.sublist (List.Sublist.map _ (rb_delete_sublist _ _))
    | none =>
      exact hnd
  · rw [if_neg hh]
    exact hnd

theorem heap_destroy_fold_no_base (h : Nat) :
    ∀ (L : List Nat) (st : DFState) (b : Nat),
      (∀ m ∈ st.tree, m.base ≠ b) →
      ∀ m ∈ (L.foldl (heap_destroy_step h) st).tree, m.base ≠ b := by
  intro L
  induction L with
  | nil => intro st b hb; exact hb
  | cons j R ih =>
    intro st b hb
    exact ih _ b (fun m hm => hb m (heap_destroy_step_tree_mono h st j hm))

theorem heap_destroy_fold_nodup (h : Nat) :
    ∀ (L : List Nat) (st : DFState),
      (st.tree.map RBNode.base).Nodup →
      (((L.foldl (heap_destroy_step h) st).tree.map RBNode.base)).Nodup := by
  intro L
  induction L with
  | nil => intro st hnd; exact hnd
  | cons j R ih =>
    intro st hnd
    exact ih _ (heap_destroy_step_nodup h st j hnd)

theorem heap_destroy_fold_head (h : Nat) :
    ∀ (L : List Nat) (st : DFState),
      (L.foldl (heap_destroy_step h) st).head = st.head := by
  intro L
  induction L with
  | nil => intro st; rfl
  | cons j R ih =>
    intro st
    rw [List.foldl_cons, ih, heap_destroy_step_head]

theorem heap_destroy_fold_fill (h : Nat) :
    ∀ (L : List Nat) (st : DFState),
      (L.foldl (heap_destroy_step h) st).fill = st.fill := by
  intro L
  induction L with
  | nil => intro st; rfl
  | cons j R ih =>
    intro st
    rw [List.foldl_cons, ih, heap_destroy_step_fill]

theorem heap_destroy_fold_length (h : Nat) :
    ∀ (L : List Nat) (st : DFState),
      (L.foldl (heap_destroy_step h) st).slots.length = st.slots.length := by
  intro L
  induction L with
  | nil => intro st; rfl
  | cons j R ih =>
    intro st
    rw [List.foldl_cons, ih, heap_destroy_step_length]

theorem heap_destroy_fold_slot_not_mem (h : Nat) :
    ∀ (L : List Nat) (st : DFState) (i : Nat), i ∉ L →
      (L.foldl (heap_destroy_step h) st).slots.getD i ⟨0, 0⟩ =
        st.slots.getD i ⟨0, 0⟩ := by
  intro L
  induction L with
  | nil => intro st i hi; rfl
  | cons j R ih =>
    intro st i hi
    have hij : j ≠ i := fun heq => hi (heq ▸ List.mem_cons_self _ _)
    have hiR : i ∉ R := fun hin => hi (List.mem_cons_of_mem _ hin)
    rw [List.foldl_cons, ih _ i hiR, heap_destroy_step_other_slot h st hij]

/-- After the heap-destroy sweep of the matching slot i, no tree node keeps
the slot's base, and the slot itself is invalidated. -/
theorem heap_destroy_step_match (h : Nat) (st : DFState) (i : Nat)
    (hnd : (st.tree.map RBNode.base).Nodup) (hlen : i < st.slots.length)
    (hh : (st.slots.getD i ⟨0, 0⟩).heap = h) :
    (∀ m ∈ (heap_destroy_step h st i).tree,
      m.base ≠ (st.slots.getD i ⟨0, 0⟩).addr) ∧
    (heap_destroy_step h st i).slots.getD i ⟨0, 0⟩ =
      ⟨0, (st.slots.getD i ⟨0, 0⟩).heap⟩ := by
  constructor
  · intro m hm
    unfold heap_destroy_step at hm
    rw [if_pos hh] at hm
    revert hm
    cases hfind : rb_find st.tree (st.slots.getD i ⟨0, 0⟩).addr with
    | some nd =>
      intro hm
      have hbase : nd.base = (st.slots.getD i ⟨0, 0⟩).addr := by
        have := List.find?_some hfind
        simpa using this
      have hmem : nd ∈ st.tree := List.mem_of_find?_eq_some hfind
      exact hbase ▸ rb_delete_no_base hnd hmem hm
    | none =>
      intro hm
      have := List.find?_eq_none.mp hfind m hm
      simpa using this
  · unfold heap_destroy_step
    rw [if_pos hh]
    exact getD_set_self _ _ hlen _ _

/-- C8: client_handle_heap_destroy leaves head and fill unchanged, removes
from the quarantine tree the interval of every slot in [0, fill) whose heap
matches and invalidates those slots by writing a NULL base, leaves slots of
other heaps and slots beyond fill unchanged; and an eviction that lands on
an invalidated (NULL-base) slot passes NULL to the real free. -/
theorem client_handle_heap_destroy_spec (h : Nat) (st : DFState)
    (hnodup : (st.tree.map RBNode.base).Nodup)
    (hfl : st.fill ≤ st.slots.length) :
    (client_handle_heap_destroy h st).head = st.head ∧
    (client_handle_heap_destroy h st).fill = st.fill ∧
    (∀ i, i < st.fill → (st.slots.getD i ⟨0, 0⟩).heap = h →
      rb_find (client_handle_heap_destroy h st).tree
        ((st.slots.getD i ⟨0, 0⟩).addr) = none ∧
      (client_handle_heap_destroy h st).slots.getD i ⟨0, 0⟩ =
        ⟨0, (st.slots.getD i ⟨0, 0⟩).heap⟩) ∧
    (∀ i, i < st.fill → (st.slots.getD i ⟨0, 0⟩).heap ≠ h →
      (client_handle_heap_destroy h st).slots.getD i ⟨0, 0⟩ =
        st.slots.getD i ⟨0, 0⟩) ∧
    (∀ i, st.fill ≤ i →
      (client_handle_heap_destroy h st).slots.getD i ⟨0, 0⟩ =
        st.slots.getD i ⟨0, 0⟩) ∧
    (∀ (opts : Options) (base size real_base heap : Nat) (sh : Shadow)
      (st2 : DFState), opts.leaks_only = false → opts.shadowing = true →
      0 < opts.delay_frees → st2.fill = opts.delay_frees →
      (st2.slots.getD st2.head ⟨0, 0⟩).addr = 0 →
      (client_handle_free opts base size real_base heap sh st2).2.2.1 = 0) := by
  have main : ∀ (L : List Nat) (st : DFState), L.Nodup →
      (st.tree.map RBNode.base).Nodup →
      (∀ i ∈ L, i < st.slots.length) →
      ∀ i ∈ L, ((st.slots.getD i ⟨0, 0⟩).heap = h →
        (∀ m ∈ (L.foldl (heap_destroy_step h) st).tree,
          m.base ≠ (st.slots.getD i ⟨0, 0⟩).addr) ∧
        (L.foldl (heap_destroy_step h) st).slots.getD i ⟨0, 0⟩ =
          ⟨0, (st.slots.getD i ⟨0, 0⟩).heap⟩) ∧
      ((st.slots.getD i ⟨0, 0⟩).heap ≠ h →
        (L.foldl (heap_destroy_step h) st).slots.getD i ⟨0, 0⟩ =
          st.slots.getD i ⟨0, 0⟩) := by
    intro L
    induction L with
    | nil => intro st _ _ _ i hi; cases hi
    | cons j R ih =>
      intro st hLnd hnd hbound i hi
      have hjR : j ∉ R := (List.nodup_cons.mp hLnd).1
      have hRnd : R.Nodup := (List.nodup_cons.mp hLnd).2
      have hndstep := heap_destroy_step_nodup h st j hnd
      by_cases hij : i = j
      · subst hij
        constructor
        · intro hmatch
          have hstep := heap_destroy_step_match h st i hnd
            (hbound i (List.mem_cons_self _ _)) hmatch
          constructor
          · intro m hm
            rw [List.foldl_cons] at hm
            exact heap_destroy_fold_no_base h R _ _ hstep.1 m hm
          · rw [List.foldl_cons,
              heap_destroy_fold_slot_not_mem h R _ i hjR, hstep.2]
        · intro hmatch
          rw [List.foldl_cons,
            heap_destroy_fold_slot_not_mem h R _ i hjR]
          unfold heap_destroy_step
          rw [if_neg hmatch]
      · have hiR : i ∈ R := by
          rcases List.mem_cons.mp hi with heq | hmem
          · exact absurd heq hij
          · exact hmem
        have hslot : (heap_destroy_step h st j).slots.getD i ⟨0, 0⟩ =
            st.slots.getD i ⟨0, 0⟩ :=
          heap_destroy_step_other_slot h st (fun heq => hij heq.symm)
        have hbound' : ∀ k ∈ R, k < (heap_destroy_step h st j).slots.length := by
          intro k hk
          rw [heap_destroy_step_length]
          exact hbound k (List.mem_cons_of_mem _ hk)
        have := ih (heap_destroy_step h st j) hRnd hndstep hbound' i hiR
        rw [List.foldl_cons]
        rw [hslot] at this
        exact this
  refine ⟨?_, ?_, ?_, ?_, ?_, ?_⟩
  · exact heap_destroy_fold_head h _ st
  · exact heap_destroy_fold_fill h _ st
  · intro i hif hmatch
    have hm := main (List.range st.fill) st (List.nodup_range _) hnodup
      (fun k hk => lt_of_lt_of_le (List.mem_range.mp hk) hfl) i
      (List.mem_range.mpr hif)
    refine ⟨rb_find_eq_none_of_no_base ((hm.1 hmatch).1), (hm.1 hmatch).2⟩
  · intro i hif hne
    have hm := main (List.range st.fill) st (List.nodup_range _) hnodup
      (fun k hk => lt_of_lt_of_le (List.mem_range.mp hk) hfl) i
      (List.mem_range.mpr hif)
    exact hm.2 hne
  · intro i hif
    exact heap_destroy_fold_slot_not_mem h (List.range st.fill) st i
      (fun hmem => absurd (List.mem_range.mp hmem) (by omega))
  · intro opts base size real_base heap sh st2 hlo hsh hdf hfill hnull
    have := (client_handle_free_full opts hlo hsh hdf base size real_base
      heap sh st2 hfill).1
    rw [this, hnull]

theorem client_handle_heap_destroy_spec_witness :
    rb_find (client_handle_heap_destroy 5
      ⟨[⟨0x1000, 5⟩, ⟨0x2000, 6⟩], 0, 2,
        [⟨0x1000, 0x20, true⟩, ⟨0x2000, 0x20, true⟩]⟩).tree 0x1000 = none ∧
    (client_handle_heap_destroy 5
      ⟨[⟨0x1000, 5⟩, ⟨0x2000, 6⟩], 0, 2,
        [⟨0x1000, 0x20, true⟩, ⟨0x2000, 0x20, true⟩]⟩).slots.getD 1 ⟨0, 0⟩ =
      ⟨0x2000, 6⟩ := by
  have hs := client_handle_heap_destroy_spec 5
    ⟨[⟨0x1000, 5⟩, ⟨0x2000, 6⟩], 0, 2,
      [⟨0x1000, 0x20, true⟩, ⟨0x2000, 0x20, true⟩]⟩ (by decide) (by decide)
  exact ⟨(hs.2.2.1 0 (by decide) (by decide)).1,
    hs.2.2.2.1 1 (by decide) (by decide)⟩

/-! Claim C4: the callstack pool refcount invariant. -/

theorem pool_lookup_incr_self {p : Pool} {c n : Nat}
    (h : pool_lookup p c = some n) :
    pool_lookup (pool_incr p c) c = some (n + 1) := by
  induction p with
  | nil => simp [pool_lookup] at h
  | cons kv r ih =>
    obtain ⟨k, m⟩ := kv
    by_cases hk : k = c
    · subst hk
      simp only [pool_lookup, if_true, eq_self_iff_true,
        Option.some.injEq] at h
      simp [pool_incr, pool_lookup, h]
    · simp only [pool_lookup, if_neg hk] at h
      simp only [pool_incr, if_neg hk, pool_lookup, if_neg hk]
      exact ih h

theorem pool_lookup_incr_other {p : Pool} {c x : Nat} (hx : x ≠ c) :
    pool_lookup (pool_incr p c) x = pool_lookup p x := by
  induction p with
  | nil => rfl
  | cons kv r ih =>
    obtain ⟨k, m⟩ := kv
    by_cases hk : k = c
    · subst hk
      have hkx : ¬ k = x := fun hh => hx hh.symm
      simp only [pool_incr, if_pos rfl, pool_lookup, if_neg hkx]
    · simp only [pool_incr, if_neg hk, pool_lookup]
      by_cases hkx : k = x
      · rw [if_pos hkx, if_pos hkx]
      · rw [if_neg hkx, if_neg hkx]
        exact ih

theorem pool_incr_keys (p : Pool) (c : Nat) :
    (pool_incr p c).map Prod.fst = p.map Prod.fst := by
  induction p with
  | nil => rfl
  | cons kv r ih =>
    obtain ⟨k, m⟩ := kv
    by_cases hk : k = c
    · simp [pool_incr, hk]
    · simp [pool_incr, hk, ih]

theorem pool_lookup_update_self {p : Pool} {c n : Nat} (m : Nat)
    (h : pool_lookup p c = some n) :
    pool_lookup (pool_update p c m) c = some m := by
  induction p with
  | nil => simp [pool_lookup] at h
  | cons kv r ih =>
    obtain ⟨k, v⟩ := kv
    by_cases hk : k = c
    · subst hk
      simp [pool_update, pool_lookup]
    · simp only [pool_lookup, if_neg hk] at h
      simp only [pool_update, if_neg hk, pool_lookup, if_neg hk]
      exact ih h

theorem pool_lookup_update_other {p : Pool} {c x : Nat} (m : Nat)
    (hx : x ≠ c) :
    pool_lookup (pool_update p c m) x = pool_lookup p x := by
  induction p with
  | nil => rfl
  | cons kv r ih =>
    obtain ⟨k, v⟩ := kv
    by_cases hk : k = c
    · subst hk
      have hkx : ¬ k = x := fun hh => hx hh.symm
      simp only [pool_update, if_pos rfl, pool_lookup, if_neg hkx]
    · simp only [pool_update, if_neg hk, pool_lookup]
      by_cases hkx : k = x
      · rw [if_pos hkx, if_pos hkx]
      · rw [if_neg hkx, if_neg hkx]
        exact ih

theorem pool_update_keys (p : Pool) (c m : Nat) :
    (pool_update p c m).map Prod.fst = p.map Prod.fst := by
  induction p with
  | nil => rfl
  | cons kv r ih =>
    obtain ⟨k, v⟩ := kv
    by_cases hk : k = c
    · simp [pool_update, hk]
    · simp [pool_update, hk, ih]

theorem pool_remove_sublist (p : Pool) (c : Nat) :
    (pool_remove p c).Sublist p := by
  induction p with
  | nil => exact List.Sublist.refl _
  | cons kv r ih =>
    obtain ⟨k, v⟩ := kv
    by_cases hk : k = c
    · simp only [pool_remove, if_pos hk]
      exact List.sublist_cons_self _ _
    · simp only [pool_remove, if_neg hk]
      exact List.Sublist.cons₂ _ ih

theorem pool_lookup_remove_other {p : Pool} {c x : Nat} (hx : x ≠ c) :
    pool_lookup (pool_remove p c) x = pool_lookup p x := by
  induction p with
  | nil => rfl
  | cons kv r ih =>
    obtain ⟨k, v⟩ := kv
    by_cases hk : k = c
    · subst hk
      have hkx : ¬ k = x := fun hh => hx hh.symm
      simp only [pool_remove, if_true, eq_self_iff_true, pool_lookup,
        if_neg hkx]
    · simp only [pool_remove, if_neg hk, pool_lookup]
      by_cases hkx : k = x
      · rw [if_pos hkx, if_pos hkx]
      · rw [if_neg hkx, if_neg hkx]
        exact ih

theorem not_mem_lookup_none {p : Pool} {c : Nat}
    (h : c ∉ p.map Prod.fst) : pool_lookup p c = none := by
  induction p with
  | nil => rfl
  | cons kv r ih =>
    obtain ⟨k, v⟩ := kv
    simp only [List.map_cons, List.mem_cons] at h
    push_neg at h
    simp only [pool_lookup]
    rw [if_neg (fun hh => h.1 hh.symm)]
    exact ih h.2

theorem lookup_none_not_mem {p : Pool} {c : Nat}
    (h : pool_lookup p c = none) : c ∉ p.map Prod.fst := by
  induction p with
  | nil => simp
  | cons kv r ih =>
    obtain ⟨k, v⟩ := kv
    simp only [pool_lookup] at h
    by_cases hk : k = c
    · rw [if_pos hk] at h
      cases h
    · rw [if_neg hk] at h
      simp only [List.map_cons, List.mem_cons]
      push_neg
      exact ⟨fun hh => hk hh.symm, ih h⟩

theorem pool_lookup_remove_self {p : Pool}
    (hnd : (p.map Prod.fst).Nodup) (c : Nat) :
    pool_lookup (pool_remove p c) c = none := by
  induction p with
  | nil => rfl
  | cons kv r ih =>
    obtain ⟨k, v⟩ := kv
    simp only [List.map_cons, List.nodup_cons] at hnd
    by_cases hk : k = c
    · subst hk
      simp only [pool_remove, if_pos rfl]
      exact not_mem_lookup_none hnd.1
    · simp only [pool_remove, if_neg hk, pool_lookup, if_neg hk]
      exact ih hnd.2

/-- The invariant tying the pool to the census of live allocation records:
no two entries share a content, an entry's refcount is one (the table's
self-reference) plus the number of live records holding it, and contents
with no live record are absent. -/
def PoolInv (p : Pool) (f : Nat → Nat) : Prop :=
  (p.map Prod.fst).Nodup ∧
  (∀ c n, pool_lookup p c = some n → 0 < f c ∧ n = f c + 1) ∧
  (∀ c, pool_lookup p c = none → f c = 0)

theorem poolStep_malloc_inv {p : Pool} {f : Nat → Nat}
    (hinv : PoolInv p f) (c : Nat) :
    PoolInv (client_add_malloc_pre c p) (liveStep f (.malloc c)) := by
  obtain ⟨hnd, hsome, hnone⟩ := hinv
  unfold client_add_malloc_pre
  cases hc : pool_lookup p c with
  | none =>
    have hpool : pool_incr ((c, 1) :: p) c = (c, 2) :: p := by
      simp [pool_incr]
    rw [hpool]
    have hfc := hnone c hc
    have hcnot : c ∉ p.map Prod.fst := lookup_none_not_mem hc
    refine ⟨by rw [List.map_cons]; exact List.nodup_cons.mpr ⟨hcnot, hnd⟩,
      ?_, ?_⟩
    · intro x n hx
      by_cases hxc : x = c
      · subst hxc
        simp only [pool_lookup, if_true, eq_self_iff_true,
          Option.some.injEq] at hx
        subst hx
        simp [liveStep, hfc]
      · simp only [pool_lookup] at hx
        rw [if_neg (fun hh => hxc hh.symm)] at hx
        have := hsome x n hx
        simpa [liveStep, hxc] using this
    · intro x hx
      by_cases hxc : x = c
      · subst hxc
        simp [pool_lookup] at hx
      · simp only [pool_lookup] at hx
        rw [if_neg (fun hh => hxc hh.symm)] at hx
        have := hnone x hx
        simpa [liveStep, hxc] using this
  | some n =>
    obtain ⟨hpos, hn⟩ := hsome c n hc
    refine ⟨by rw [pool_incr_keys]; exact hnd, ?_, ?_⟩
    · intro x m hx
      by_cases hxc : x = c
      · subst hxc
        rw [pool_lookup_incr_self hc] at hx
        cases hx
        simp [liveStep]
        omega
      · rw [pool_lookup_incr_other hxc] at hx
        have := hsome x m hx
        simpa [liveStep, hxc] using this
    · intro x hx
      by_cases hxc : x = c
      · subst hxc
        rw [pool_lookup_incr_self hc] at hx
        cases hx
      · rw [pool_lookup_incr_other hxc] at hx
        have := hnone x hx
        simpa [liveStep, hxc] using this

theorem poolStep_free_inv {p : Pool} {f : Nat → Nat}
    (hinv : PoolInv p f) (c : Nat) (hc : 0 < f c) :
    PoolInv (client_malloc_data_free c p) (liveStep f (.free c)) := by
  obtain ⟨hnd, hsome, hnone⟩ := hinv
  unfold client_malloc_data_free
  cases hl : pool_lookup p c with
  | none =>
    have := hnone c hl
    omega
  | some n =>
    obtain ⟨hpos, hn⟩ := hsome c n hl
    show PoolInv (if n - 1 = 1 then pool_remove p c
      else pool_update p c (n - 1)) (liveStep f (.free c))
    by_cases h1 : n - 1 = 1
    · rw [if_pos h1]
      have hfc1 : f c = 1 := by omega
      refine ⟨hnd.sublist (List.Sublist.map _ (pool_remove_sublist p c)),
        ?_, ?_⟩
      · intro x m hx
        by_cases hxc : x = c
        · subst hxc
          rw [pool_lookup_remove_self hnd x] at hx
          cases hx
        · rw [pool_lookup_remove_other hxc] at hx
          have := hsome x m hx
          simpa [liveStep, hxc] using this
      · intro x hx
        by_cases hxc : x = c
        · subst hxc
          simp [liveStep, hfc1]
        · rw [pool_lookup_remove_other hxc] at hx
          have := hnone x hx
          simpa [liveStep, hxc] using this
    · rw [if_neg h1]
      have hfc2 : 2 ≤ f c := by omega
      refine ⟨by rw [pool_update_keys]; exact hnd, ?_, ?_⟩
      · intro x m hx
        by_cases hxc : x = c
        · subst hxc
          rw [pool_lookup_update_self (n - 1) hl] at hx
          cases hx
          simp only [liveStep]
          simp only [if_true, eq_self_iff_true]
          omega
        · rw [pool_lookup_update_other _ hxc] at hx
          have := hsome x m hx
          simpa [liveStep, hxc] using this
      · intro x hx
        by_cases hxc : x = c
        · subst hxc
          rw [pool_lookup_update_self (n - 1) hl] at hx
          cases hx
        · rw [pool_lookup_update_other _ hxc] at hx
          have := hnone x hx
          simpa [liveStep, hxc] using this

theorem runPool_inv : ∀ (evs : List AllocEvent) (p : Pool) (f : Nat → Nat),
    PoolInv p f → WFevents evs f →
    PoolInv (evs.foldl poolStep p) (liveAfter evs f) := by
  intro evs
  induction evs with
  | nil => intro p f hinv _; exact hinv
  | cons ev rest ih =>
    intro p f hinv hwf
    cases ev with
    | malloc c => exact ih _ _ (poolStep_malloc_inv hinv c) hwf
    | free c => exact ih _ _ (poolStep_free_inv hinv c hwf.1) hwf.2

/-- C4: for every well-formed sequence of malloc-record
(client_add_malloc_pre) and free-record (client_malloc_data_free) events,
the callstack pool holds no two entries of equal content, every entry's
refcount equals 1 (the table self-reference) plus the number of live
allocation records holding it, and a content with no remaining live record
is absent from the pool (the release dropping the count to 1 removed it). -/
theorem alloc_stack_table_refcount_invariant (evs : List AllocEvent)
    (hwf : WFevents evs (fun _ => 0)) :
    ((runPool evs).map Prod.fst).Nodup ∧
    (∀ c n, pool_lookup (runPool evs) c = some n →
      0 < liveAfter evs (fun _ => 0) c ∧
      n = liveAfter evs (fun _ => 0) c + 1) ∧
    (∀ c, liveAfter evs (fun _ => 0) c = 0 →
      pool_lookup (runPool evs) c = none) := by
  have hinv0 : PoolInv [] (fun _ => 0) := by
    refine ⟨List.nodup_nil, ?_, ?_⟩
    · intro c n h
      simp [pool_lookup] at h
    · intro c _
      rfl
  obtain ⟨h1, h2, h3⟩ := runPool_inv evs [] (fun _ => 0) hinv0 hwf
  refine ⟨h1, h2, ?_⟩
  intro c hc
  cases hl : pool_lookup (runPool evs) c with
  | none => rfl
  | some n =>
    have := h2 c n hl
    omega

theorem alloc_stack_table_refcount_invariant_witness :
    pool_lookup (runPool [.malloc 7, .malloc 7, .free 7]) 7 = some 2 ∧
    ((runPool [.malloc 7, .malloc 7, .free 7]).map Prod.fst).Nodup := by
  refine ⟨by decide, ?_⟩
  exact (alloc_stack_table_refcount_invariant [.malloc 7, .malloc 7, .free 7]
    (by simp [WFevents, liveStep])).1

end DrMem
